import Mathlib

/-!
Verification of the coordinate-to-domain placement logic of
`src/explorations/explore_api.py` (the FastAPI prototype).

The module-level state of the Python program is:
  * `coordinates_map : dict` mapping keys of the form `f"{x},{y}"` to domain
    strings.  Python dicts preserve insertion order and have unique keys; we
    model the dict as an insertion-ordered association list.  Since the key
    string `f"{x},{y}"` is an injective encoding of the integer pair `(x, y)`
    (and is parsed back exactly by `map(int, key.split(','))`), coordinates are
    modelled directly as pairs of integers.
  * `assigned_domains : set` of domain strings, modelled as a duplicate-free
    insertion list with set semantics (`set.add` inserts only when absent).
  * the file `coordinates_map.json`, rewritten wholesale by `json.dump` after
    each successful mutation; its content is a JSON object with the same
    entries as `coordinates_map`, modelled by the entry list itself.

External collaborators (the sklearn `NearestNeighbors` model and the loaded
`domains` list / `embeddings` array) are parameters of the operations: `knn`
abstracts `nn_model.kneighbors` as a function from the list of query row
indices and the requested neighbor count to one list of neighbor indices per
query row (the Python code indexes the result positionally; a missing row is
modelled as the empty row where Python would raise `IndexError`).

Randomness (`random.choice(available_domains)`) is modelled by an arbitrary
natural-number choice `c`, selecting element `c % len(available_domains)`;
quantifying over `c` covers every outcome of `random.choice`.
-/

/-- A grid coordinate: the pair `(x, y)` encoded by the dict key `f"{x},{y}"`. -/
abbrev Coord := Int × Int

/-- The `coordinates_map` dict: insertion-ordered entries of coordinate and domain. -/
abbrev CoordMap := List (Coord × String)

/-- Python dict lookup `m[k]` / `m.get(k)`: the value at the (unique) key `k`. -/
def lookupKey : CoordMap → Coord → Option String
  | [], _ => none
  | (k', v) :: rest, k => if k' = k then some v else lookupKey rest k

/-- Python dict assignment `m[k] = v`: replaces the value in place when `k` is
already a key, otherwise appends the entry at the end (insertion order). -/
def dictInsert (m : CoordMap) (k : Coord) (v : String) : CoordMap :=
  if m.any (fun kv => kv.1 = k) then
    m.map (fun kv => if kv.1 = k then (k, v) else kv)
  else
    m ++ [(k, v)]

/-- Python `set.add`: inserts the element only when it is not yet a member. -/
def setAdd (s : List String) (d : String) : List String :=
  if d ∈ s then s else s ++ [d]

/-- `coordinates_map.values()` as a list. -/
def valuesOf (m : CoordMap) : List String := m.map Prod.snd

/-- The module state of `explore_api.py`: the in-memory dict and set, and the
content of the persisted file `coordinates_map.json`. -/
structure RegState where
  coordinates_map : CoordMap
  assigned_domains : List String
  savedFile : CoordMap
deriving Repr, DecidableEq

/-- Startup loading (`explore_api.py` lines 52-58): the dict is read from the
file and every value is added to `assigned_domains`. -/
def loadState (f : CoordMap) : RegState :=
  { coordinates_map := f
    assigned_domains := (valuesOf f).foldl setAdd []
    savedFile := f }

/-- The Manhattan distance `abs(bx - source_x) + abs(by - source_y)` computed
in the nearest-block loop (line 98). -/
def manhattan (k : Coord) (sourceX sourceY : Int) : Nat :=
  (k.1 - sourceX).natAbs + (k.2 - sourceY).natAbs

/-- The nearest-block loop of `generate_new_block` (lines 94-101): the running
best `(nearest_block_key, min_distance)` starts as `None` (`min_distance`
is `float('inf')`, so the first entry always replaces it) and is replaced
exactly when a strictly smaller distance is seen. -/
def nearestLoop (sourceX sourceY : Int) :
    List (Coord × String) → Option (Coord × Nat) → Option (Coord × Nat)
  | [], acc => acc
  | kv :: rest, acc =>
      let d := manhattan kv.1 sourceX sourceY
      let acc' := match acc with
        | none => some (kv.1, d)
        | some (bk, bd) => if d < bd then (some (kv.1, d)) else (some (bk, bd))
      nearestLoop sourceX sourceY rest acc'

/-- `nearest_block_key` as computed by `generate_new_block` (lines 94-101). -/
def nearest_block_key (m : CoordMap) (sourceX sourceY : Int) : Option Coord :=
  (nearestLoop sourceX sourceY m none).map Prod.fst

/-- `domain_to_index` lookup (line 68): dict comprehension over
`enumerate(domains)`, so a duplicated domain keeps its last index. -/
def domainToIndex (domains : List String) (d : String) : Option Nat :=
  (List.range domains.length).foldl
    (fun acc i => if domains.getD i "" = d then some i else acc) none

/-- The inner loop of `_get_related_embeddings` (lines 82-88) over the neighbor
indices of one input domain: a neighbor domain is appended when it is not an
input domain, not already collected, and not assigned; after each iteration
the loop breaks once `top_n` results have been collected. -/
def relatedInner (domains input assigned : List String) (topN : Nat) :
    List Nat → List String → List String
  | [], acc => acc
  | idx :: rest, acc =>
      let nd := domains.getD idx ""
      let acc' :=
        if nd ∉ input ∧ nd ∉ acc ∧ nd ∉ assigned then acc ++ [nd] else acc
      if topN ≤ acc'.length then acc'
      else relatedInner domains input assigned topN rest acc'

/-- `_get_related_embeddings` (lines 66-90).  `knn` abstracts
`nn_model.kneighbors`, returning one list of neighbor indices per query row;
the query rows are the indices of the input domains found in `domains`, and
the requested count is `top_n + len(input_domains) + len(assigned_domains)`.
The outer loop runs over `enumerate(input_domains)` and reads row `i` of the
result positionally. -/
def getRelatedEmbeddings (domains : List String)
    (knn : List Nat → Nat → List (List Nat))
    (assigned : List String) (inputDomains : List String) (topN : Nat) :
    List String :=
  let indices := inputDomains.filterMap (domainToIndex domains)
  let rows := knn indices (topN + inputDomains.length + assigned.length)
  (List.range inputDomains.length).foldl
    (fun acc i => relatedInner domains inputDomains assigned topN (rows.getD i []) acc)
    []

/-- The errors raised by the API endpoints, all `HTTPException(status_code=400, ...)`. -/
inductive ApiError
  | noExistingBlocks
  | notEnoughAvailable
  | seedNotFound
deriving Repr, DecidableEq

/-- Every raised `HTTPException` carries `status_code=400`. -/
def ApiError.status : ApiError → Nat := fun _ => 400

/-- The `detail` string of each raised `HTTPException`. -/
def ApiError.detail : ApiError → String
  | .noExistingBlocks => "No existing blocks to generate new embeddings from"
  | .notEnoughAvailable => "Not enough available domains"
  | .seedNotFound => "Seed domain not found in the list of domains"

/-- `random.choice(l)` for nonempty `l`, with the random draw modelled by `c`. -/
def randomChoice (l : List String) (c : Nat) : String :=
  l.getD (c % l.length) ""

/-- `generate_new_block` (lines 92-124).  Returns the produced domain or the
raised error, together with the module state after the call: every `raise`
happens before the mutations of lines 117-122, so an error leaves the state
exactly as it was; success inserts the selected domain at `f"{x},{y}"`, adds
it to `assigned_domains`, and rewrites the persisted file with the new dict. -/
def generate_new_block (domains : List String)
    (knn : List Nat → Nat → List (List Nat))
    (x y sourceX sourceY : Int) (c : Nat) (s : RegState) :
    Except ApiError String × RegState :=
  match nearest_block_key s.coordinates_map sourceX sourceY with
  | none => (.error .noExistingBlocks, s)
  | some nk =>
      let nearestDomain := (lookupKey s.coordinates_map nk).getD ""
      let related := getRelatedEmbeddings domains knn s.assigned_domains [nearestDomain] 5
      let available := related.filter (fun d => d ∉ s.assigned_domains)
      if available.isEmpty then (.error .notEnoughAvailable, s)
      else
        let selected := randomChoice available c
        let newMap := dictInsert s.coordinates_map (x, y) selected
        (.ok selected,
          { coordinates_map := newMap
            assigned_domains := setAdd s.assigned_domains selected
            savedFile := newMap })

/-- The `/coordinates` endpoint `get_coordinates` (lines 126-137): returns the
stored domain when the key is present, otherwise allocates via
`generate_new_block`. -/
def get_coordinates (domains : List String)
    (knn : List Nat → Nat → List (List Nat))
    (x y sourceX sourceY : Int) (c : Nat) (s : RegState) :
    Except ApiError String × RegState :=
  match lookupKey s.coordinates_map (x, y) with
  | some d => (.ok d, s)
  | none => generate_new_block domains knn x y sourceX sourceY c s

/-- The `/seed` endpoint `seed_initial_block` (lines 139-166): checks that
`"google.com"` is among the loaded domains, returns the existing `(0,0)`
assignment when present, and otherwise allocates at `(0,0)` from the seed
domain's related embeddings. -/
def seed_initial_block (domains : List String)
    (knn : List Nat → Nat → List (List Nat))
    (c : Nat) (s : RegState) :
    Except ApiError String × RegState :=
  if "google.com" ∉ domains then (.error .seedNotFound, s)
  else
    match lookupKey s.coordinates_map (0, 0) with
    | some d => (.ok d, s)
    | none =>
        let related := getRelatedEmbeddings domains knn s.assigned_domains ["google.com"] 5
        let available := related.filter (fun d => d ∉ s.assigned_domains)
        if available.isEmpty then (.error .notEnoughAvailable, s)
        else
          let selected := randomChoice available c
          let newMap := dictInsert s.coordinates_map ((0 : Int), (0 : Int)) selected
          (.ok selected,
            { coordinates_map := newMap
              assigned_domains := setAdd s.assigned_domains selected
              savedFile := newMap })

/-- One request to the service: either `POST /coordinates` or `POST /seed`
(with its random draw `c`). -/
inductive Op
  | coords (x y sourceX sourceY : Int) (c : Nat)
  | seed (c : Nat)
deriving Repr, DecidableEq

/-- The state after serving one request (a raised `HTTPException` leaves the
module state untouched). -/
def applyOp (domains : List String) (knn : List Nat → Nat → List (List Nat))
    (s : RegState) : Op → RegState
  | .coords x y sourceX sourceY c => (get_coordinates domains knn x y sourceX sourceY c s).2
  | .seed c => (seed_initial_block domains knn c s).2

/-- The state after serving a sequence of requests. -/
def runOps (domains : List String) (knn : List Nat → Nat → List (List Nat))
    (s : RegState) (ops : List Op) : RegState :=
  ops.foldl (applyOp domains knn) s

/-- The uniqueness invariant of the spec: no domain appears at two distinct
coordinates of the map. -/
def domInj (m : CoordMap) : Prop :=
  ∀ k1 k2 d, lookupKey m k1 = some d → lookupKey m k2 = some d → k1 = k2

/-- The lockstep invariant of the spec:
`assigned_domains == set(coordinates_map.values())` as sets. -/
def assignedMatchesValues (s : RegState) : Prop :=
  ∀ d, d ∈ s.assigned_domains ↔ d ∈ valuesOf s.coordinates_map

/-! ### Basic lemmas about the dict and set model -/

theorem lookupKey_none_not_contains {m : CoordMap} {k : Coord}
    (h : lookupKey m k = none) : m.any (fun kv => kv.1 = k) = false := by
  induction m with
  | nil => rfl
  | cons kv rest ih =>
      unfold lookupKey at h
      by_cases hk : kv.1 = k
      · obtain ⟨k', v'⟩ := kv
        simp only at hk
        simp [hk] at h
      · obtain ⟨k', v'⟩ := kv
        simp only at hk
        simp only [hk, if_false] at h
        simp [List.any_cons, hk, ih h]

theorem dictInsert_of_not_mem {m : CoordMap} {k : Coord} (v : String)
    (h : lookupKey m k = none) : dictInsert m k v = m ++ [(k, v)] := by
  unfold dictInsert
  rw [lookupKey_none_not_contains h]
  simp

theorem lookupKey_append_of_none {m l : CoordMap} {k : Coord}
    (h : lookupKey m k = none) : lookupKey (m ++ l) k = lookupKey l k := by
  induction m with
  | nil => rfl
  | cons kv rest ih =>
      obtain ⟨k', v'⟩ := kv
      by_cases hk : k' = k
      · simp [lookupKey, hk] at h
      · simp only [lookupKey, hk, if_false] at h
        simp only [List.cons_append, lookupKey, hk, if_false]
        exact ih h

theorem lookupKey_dictInsert_self {m : CoordMap} {k : Coord} {v : String}
    (h : lookupKey m k = none) :
    lookupKey (dictInsert m k v) k = some v := by
  rw [dictInsert_of_not_mem v h, lookupKey_append_of_none h]
  simp [lookupKey]

theorem randomChoice_mem {l : List String} (h : l ≠ []) (c : Nat) :
    randomChoice l c ∈ l := by
  have hlen : 0 < l.length := List.length_pos.mpr h
  have hmod : c % l.length < l.length := Nat.mod_lt _ hlen
  unfold randomChoice
  rw [List.getD_eq_getElem l "" hmod]
  exact List.getElem_mem hmod

/-! ### Structural lemmas about the allocation operations -/

/-- What a successful `generate_new_block` call does to the state. -/
theorem generate_new_block_ok {domains : List String}
    {knn : List Nat → Nat → List (List Nat)} {x y sourceX sourceY : Int}
    {c : Nat} {s : RegState} {d : String} {s' : RegState}
    (h : generate_new_block domains knn x y sourceX sourceY c s = (.ok d, s')) :
    d ∉ s.assigned_domains ∧
    s'.coordinates_map = dictInsert s.coordinates_map (x, y) d ∧
    s'.assigned_domains = setAdd s.assigned_domains d ∧
    s'.savedFile = s'.coordinates_map := by
  unfold generate_new_block at h
  cases hnb : nearest_block_key s.coordinates_map sourceX sourceY with
  | none => rw [hnb] at h; exact absurd (congrArg Prod.fst h) (by simp)
  | some nk =>
      rw [hnb] at h
      simp only at h
      set related := getRelatedEmbeddings domains knn s.assigned_domains
        [(lookupKey s.coordinates_map nk).getD ""] 5 with hrel
      set available := related.filter (fun d => d ∉ s.assigned_domains) with hav
      by_cases hemp : available.isEmpty
      · rw [if_pos hemp] at h; exact absurd (congrArg Prod.fst h) (by simp)
      · rw [if_neg hemp] at h
        have hne : available ≠ [] := by
          intro hnil; exact hemp (by simp [hnil])
        have hmem : randomChoice available c ∈ available := randomChoice_mem hne c
        have hsel : d = randomChoice available c := by
          have := congrArg Prod.fst h
          simp at this
          exact this.symm
        obtain ⟨heq1, heq2⟩ := Prod.mk.injEq _ _ _ _ ▸ h
        subst hsel
        have hnotassigned : randomChoice available c ∉ s.assigned_domains := by
          have := List.of_mem_filter hmem
          simpa using this
        refine ⟨hnotassigned, ?_, ?_, ?_⟩
        · rw [← heq2]
        · rw [← heq2]
        · rw [← heq2]

/-- What a successful allocation through `seed_initial_block` does to the state. -/
theorem seed_initial_block_ok {domains : List String}
    {knn : List Nat → Nat → List (List Nat)} {c : Nat} {s : RegState}
    {d : String} {s' : RegState}
    (hseed : lookupKey s.coordinates_map (0, 0) = none)
    (h : seed_initial_block domains knn c s = (.ok d, s')) :
    d ∉ s.assigned_domains ∧
    s'.coordinates_map = dictInsert s.coordinates_map (0, 0) d ∧
    s'.assigned_domains = setAdd s.assigned_domains d ∧
    s'.savedFile = s'.coordinates_map := by
  unfold seed_initial_block at h
  by_cases hg : "google.com" ∉ domains
  · rw [if_pos hg] at h; exact absurd (congrArg Prod.fst h) (by simp)
  · rw [if_neg hg, hseed] at h
    simp only at h
    set related := getRelatedEmbeddings domains knn s.assigned_domains ["google.com"] 5 with hrel
    set available := related.filter (fun d => d ∉ s.assigned_domains) with hav
    by_cases hemp : available.isEmpty
    · rw [if_pos hemp] at h; exact absurd (congrArg Prod.fst h) (by simp)
    · rw [if_neg hemp] at h
      have hne : available ≠ [] := by
        intro hnil; exact hemp (by simp [hnil])
      have hmem : randomChoice available c ∈ available := randomChoice_mem hne c
      have hsel : d = randomChoice available c := by
        have := congrArg Prod.fst h
        simp at this
        exact this.symm
      obtain ⟨heq1, heq2⟩ := Prod.mk.injEq _ _ _ _ ▸ h
      subst hsel
      have hnotassigned : randomChoice available c ∉ s.assigned_domains := by
        have := List.of_mem_filter hmem
        simpa using this
      refine ⟨hnotassigned, ?_, ?_, ?_⟩
      · rw [← heq2]
      · rw [← heq2]
      · rw [← heq2]

/-! ### Claim theorems: error paths and idempotent reads -/

/-- C5: calling `generate_new_block` when the registry contains no assigned
coordinates fails with the no-anchor error (HTTP 400) and does not mutate any
state: the coordinate map, the assigned-domain set and the persisted file are
all returned exactly as they were. -/
theorem allocate_empty_registry_fails (domains : List String)
    (knn : List Nat → Nat → List (List Nat)) (x y sourceX sourceY : Int)
    (c : Nat) (s : RegState) (h : s.coordinates_map = []) :
    generate_new_block domains knn x y sourceX sourceY c s
      = (.error .noExistingBlocks, s) ∧ ApiError.noExistingBlocks.status = 400 := by
  have hnb : nearest_block_key s.coordinates_map sourceX sourceY = none := by
    rw [h]; rfl
  unfold generate_new_block
  rw [hnb]
  exact ⟨rfl, rfl⟩

/-- Witness for C5: the empty start state. -/
theorem allocate_empty_registry_fails_witness :
    generate_new_block [] (fun _ _ => []) 1 0 0 0 0 ⟨[], [], []⟩
      = (.error .noExistingBlocks, ⟨[], [], []⟩) ∧
    ApiError.noExistingBlocks.status = 400 :=
  allocate_empty_registry_fails [] (fun _ _ => []) 1 0 0 0 0 ⟨[], [], []⟩ rfl

/-- C4: when the candidate list for the anchor domain is empty after filtering
out assigned domains, `generate_new_block` fails with the
exhausted-candidates error (HTTP 400) and leaves the whole state (coordinate
map, assigned-domain set, persisted file) unchanged. -/
theorem exhausted_candidates_fails (domains : List String)
    (knn : List Nat → Nat → List (List Nat)) (x y sourceX sourceY : Int)
    (c : Nat) (s : RegState) (nk : Coord)
    (hnk : nearest_block_key s.coordinates_map sourceX sourceY = some nk)
    (hempty : (getRelatedEmbeddings domains knn s.assigned_domains
        [(lookupKey s.coordinates_map nk).getD ""] 5).filter
        (fun d => d ∉ s.assigned_domains) = []) :
    generate_new_block domains knn x y sourceX sourceY c s
      = (.error .notEnoughAvailable, s) ∧
    ApiError.notEnoughAvailable.status = 400 := by
  unfold generate_new_block
  rw [hnk]
  simp only [hempty, List.isEmpty_nil, if_true]
  exact ⟨trivial, rfl⟩

/-- Witness for C4: a one-block registry whose only related domain is already
assigned, so the filtered candidate list is empty. -/
theorem exhausted_candidates_fails_witness :
    generate_new_block ["google.com"] (fun _ _ => [[0]]) 1 0 0 0 0
        ⟨[((0, 0), "google.com")], ["google.com"], [((0, 0), "google.com")]⟩
      = (.error .notEnoughAvailable,
         ⟨[((0, 0), "google.com")], ["google.com"], [((0, 0), "google.com")]⟩) ∧
    ApiError.notEnoughAvailable.status = 400 :=
  exhausted_candidates_fails ["google.com"] (fun _ _ => [[0]]) 1 0 0 0 0
    ⟨[((0, 0), "google.com")], ["google.com"], [((0, 0), "google.com")]⟩
    (0, 0) rfl rfl

/-- C7: when `(0,0)` is already assigned and the fixed seed domain is among
the loaded domains, `seed_initial_block` returns the stored domain and leaves
the coordinate map, the assigned-domain set and the persisted file untouched. -/
theorem seed_idempotent (domains : List String)
    (knn : List Nat → Nat → List (List Nat)) (c : Nat) (s : RegState)
    (d : String) (hg : "google.com" ∈ domains)
    (h0 : lookupKey s.coordinates_map (0, 0) = some d) :
    seed_initial_block domains knn c s = (.ok d, s) := by
  unfold seed_initial_block
  rw [if_neg (by simp [hg]), h0]

/-- Witness for C7: seeding a registry that already holds `(0,0)`. -/
theorem seed_idempotent_witness :
    seed_initial_block ["google.com"] (fun _ _ => []) 0
        ⟨[((0, 0), "m.wikipedia.org")], ["m.wikipedia.org"], []⟩
      = (.ok "m.wikipedia.org",
         ⟨[((0, 0), "m.wikipedia.org")], ["m.wikipedia.org"], []⟩) :=
  seed_idempotent ["google.com"] (fun _ _ => []) 0
    ⟨[((0, 0), "m.wikipedia.org")], ["m.wikipedia.org"], []⟩
    "m.wikipedia.org" (by decide) rfl

/-- C10: `seed_initial_block` tests membership of the fixed seed domain in the
loaded domain list before looking at `(0,0)`: when the seed domain is absent,
seeding fails with the seed-not-found error (HTTP 400) even though `(0,0)`
already holds a domain, and the state is unchanged. -/
theorem seed_checks_domain_first (domains : List String)
    (knn : List Nat → Nat → List (List Nat)) (c : Nat) (s : RegState)
    (d : String) (hg : "google.com" ∉ domains)
    (_h0 : lookupKey s.coordinates_map (0, 0) = some d) :
    seed_initial_block domains knn c s = (.error .seedNotFound, s) ∧
    ApiError.seedNotFound.status = 400 := by
  unfold seed_initial_block
  rw [if_pos hg]
  exact ⟨rfl, rfl⟩

/-- Witness for C10: an empty domain list with `(0,0)` already assigned. -/
theorem seed_checks_domain_first_witness :
    seed_initial_block [] (fun _ _ => []) 0
        ⟨[((0, 0), "m.wikipedia.org")], ["m.wikipedia.org"], []⟩
      = (.error .seedNotFound,
         ⟨[((0, 0), "m.wikipedia.org")], ["m.wikipedia.org"], []⟩) ∧
    ApiError.seedNotFound.status = 400 :=
  seed_checks_domain_first [] (fun _ _ => []) 0
    ⟨[((0, 0), "m.wikipedia.org")], ["m.wikipedia.org"], []⟩
    "m.wikipedia.org" (by decide) rfl

/-- C2: resolving a coordinate already present in the registry returns the
stored domain with the whole state (coordinate map, assigned set, persisted
file) unchanged; consequently, after any successful resolve of `(x, y)`,
resolving `(x, y)` again (with any source coordinate and any random draw)
returns the same domain and changes nothing. -/
theorem resolve_idempotent (domains : List String)
    (knn : List Nat → Nat → List (List Nat))
    (x y sourceX sourceY : Int) (c : Nat)
    (sourceX' sourceY' : Int) (c' : Nat) (s : RegState) :
    (∀ d, lookupKey s.coordinates_map (x, y) = some d →
        get_coordinates domains knn x y sourceX sourceY c s = (.ok d, s)) ∧
    (∀ d s', get_coordinates domains knn x y sourceX sourceY c s = (.ok d, s') →
        get_coordinates domains knn x y sourceX' sourceY' c' s' = (.ok d, s')) := by
  constructor
  · intro d hd
    unfold get_coordinates
    rw [hd]
  · intro d s' h
    cases hl : lookupKey s.coordinates_map (x, y) with
    | some d0 =>
        unfold get_coordinates at h
        rw [hl] at h
        obtain ⟨h1, h2⟩ := Prod.mk.injEq _ _ _ _ ▸ h
        have hd : d0 = d := by
          have := congrArg Prod.fst h
          simpa using this
        have hs : s = s' := by
          have := congrArg Prod.snd h
          simpa using this
        unfold get_coordinates
        rw [← hs, hl, hd]
    | none =>
        unfold get_coordinates at h
        rw [hl] at h
        obtain ⟨-, hmap, -, -⟩ := generate_new_block_ok h
        have : lookupKey s'.coordinates_map (x, y) = some d := by
          rw [hmap]
          exact lookupKey_dictInsert_self hl
        unfold get_coordinates
        rw [this]

/-- Witness for C2: resolving a present coordinate returns the stored domain. -/
theorem resolve_idempotent_witness :
    get_coordinates ["google.com"] (fun _ _ => []) 0 0 0 0 0
        ⟨[((0, 0), "google.com")], ["google.com"], []⟩
      = (.ok "google.com", ⟨[((0, 0), "google.com")], ["google.com"], []⟩) :=
  (resolve_idempotent ["google.com"] (fun _ _ => []) 0 0 0 0 0 0 0 0
    ⟨[((0, 0), "google.com")], ["google.com"], []⟩).1 "google.com" rfl

/-! ### Membership lemmas for the set model and the dict values -/

theorem mem_setAdd {s : List String} {d x : String} :
    x ∈ setAdd s d ↔ x ∈ s ∨ x = d := by
  unfold setAdd
  by_cases hd : d ∈ s
  · rw [if_pos hd]
    constructor
    · exact Or.inl
    · rintro (hx | rfl)
      · exact hx
      · exact hd
  · rw [if_neg hd]
    simp

theorem mem_foldl_setAdd (l : List String) (init : List String) (x : String) :
    x ∈ l.foldl setAdd init ↔ x ∈ init ∨ x ∈ l := by
  induction l generalizing init with
  | nil => simp
  | cons a rest ih =>
      rw [List.foldl_cons, ih, mem_setAdd]
      constructor
      · rintro ((hx | rfl) | hx)
        · exact Or.inl hx
        · exact Or.inr (List.mem_cons_self _ _)
        · exact Or.inr (List.mem_cons_of_mem _ hx)
      · rintro (hx | hx)
        · exact Or.inl (Or.inl hx)
        · rcases List.mem_cons.mp hx with rfl | hx
          · exact Or.inl (Or.inr rfl)
          · exact Or.inr hx

theorem lookupKey_mem_values {m : CoordMap} {k : Coord} {d : String}
    (h : lookupKey m k = some d) : d ∈ valuesOf m := by
  induction m with
  | nil => simp [lookupKey] at h
  | cons kv rest ih =>
      obtain ⟨k', v'⟩ := kv
      by_cases hk : k' = k
      · simp only [lookupKey, hk, if_true, Option.some.injEq] at h
        simp [valuesOf, h]
      · simp only [lookupKey, hk, if_false] at h
        have := ih h
        simp [valuesOf] at this ⊢
        exact Or.inr this

theorem valuesOf_append (m : CoordMap) (k : Coord) (v : String) :
    valuesOf (m ++ [(k, v)]) = valuesOf m ++ [v] := by
  simp [valuesOf]

theorem lookupKey_split (m l : CoordMap) (k : Coord) :
    lookupKey (m ++ l) k =
      match lookupKey m k with
      | some v => some v
      | none => lookupKey l k := by
  induction m with
  | nil => rfl
  | cons kv rest ih =>
      obtain ⟨k', v'⟩ := kv
      by_cases hk : k' = k
      · simp [lookupKey, hk]
      · simp only [List.cons_append, lookupKey, hk, if_false]
        exact ih

theorem lookupKey_singleton {k k1 : Coord} {v d : String}
    (h : lookupKey [(k, v)] k1 = some d) : k1 = k ∧ d = v := by
  by_cases hk : k = k1
  · simp only [lookupKey, hk, if_true, Option.some.injEq] at h
    exact ⟨hk.symm, h.symm⟩
  · simp [lookupKey, hk] at h

/-- Appending a fresh domain at a new coordinate preserves the uniqueness
invariant. -/
theorem domInj_append {m : CoordMap} {k : Coord} {v : String}
    (hinj : domInj m) (hv : v ∉ valuesOf m) :
    domInj (m ++ [(k, v)]) := by
  intro k1 k2 d h1 h2
  rw [lookupKey_split] at h1 h2
  cases hm1 : lookupKey m k1 with
  | some d1 =>
      rw [hm1] at h1
      cases hm2 : lookupKey m k2 with
      | some d2 =>
          rw [hm2] at h2
          exact hinj k1 k2 d (hm1.trans h1) (hm2.trans h2)
      | none =>
          rw [hm2] at h2
          obtain ⟨-, rfl⟩ := lookupKey_singleton h2
          have : d ∈ valuesOf m := lookupKey_mem_values (hm1.trans h1)
          exact absurd this hv
  | none =>
      rw [hm1] at h1
      obtain ⟨hk1, rfl⟩ := lookupKey_singleton h1
      cases hm2 : lookupKey m k2 with
      | some d2 =>
          rw [hm2] at h2
          have : d ∈ valuesOf m := lookupKey_mem_values (hm2.trans h2)
          exact absurd this hv
      | none =>
          rw [hm2] at h2
          obtain ⟨hk2, -⟩ := lookupKey_singleton h2
          rw [hk1, hk2]

/-! ### Case analyses of the state after each operation -/

/-- `generate_new_block` either leaves the state untouched (an error was
raised before the mutations) or appends a fresh, unassigned domain. -/
theorem generate_new_block_state_cases (domains : List String)
    (knn : List Nat → Nat → List (List Nat)) (x y sourceX sourceY : Int)
    (c : Nat) (s : RegState) :
    (generate_new_block domains knn x y sourceX sourceY c s).2 = s ∨
    ∃ d, d ∉ s.assigned_domains ∧
      (generate_new_block domains knn x y sourceX sourceY c s).2 =
        { coordinates_map := dictInsert s.coordinates_map (x, y) d
          assigned_domains := setAdd s.assigned_domains d
          savedFile := dictInsert s.coordinates_map (x, y) d } := by
  unfold generate_new_block
  cases hnb : nearest_block_key s.coordinates_map sourceX sourceY with
  | none => exact Or.inl rfl
  | some nk =>
      dsimp only
      set available := (getRelatedEmbeddings domains knn s.assigned_domains
        [(lookupKey s.coordinates_map nk).getD ""] 5).filter
        (fun d => d ∉ s.assigned_domains) with hav
      by_cases hemp : available.isEmpty
      · rw [if_pos hemp]
        exact Or.inl rfl
      · rw [if_neg hemp]
        refine Or.inr ⟨randomChoice available c, ?_, rfl⟩
        have hne : available ≠ [] := fun hnil => hemp (by simp [hnil])
        have := List.of_mem_filter (randomChoice_mem hne c)
        simpa using this

/-- `seed_initial_block` either leaves the state untouched (error, or `(0,0)`
already assigned) or appends a fresh, unassigned domain at `(0,0)`. -/
theorem seed_initial_block_state_cases (domains : List String)
    (knn : List Nat → Nat → List (List Nat)) (c : Nat) (s : RegState) :
    (seed_initial_block domains knn c s).2 = s ∨
    ∃ d, lookupKey s.coordinates_map (0, 0) = none ∧ d ∉ s.assigned_domains ∧
      (seed_initial_block domains knn c s).2 =
        { coordinates_map := dictInsert s.coordinates_map (0, 0) d
          assigned_domains := setAdd s.assigned_domains d
          savedFile := dictInsert s.coordinates_map (0, 0) d } := by
  unfold seed_initial_block
  by_cases hg : "google.com" ∉ domains
  · rw [if_pos hg]
    exact Or.inl rfl
  · rw [if_neg hg]
    cases h0 : lookupKey s.coordinates_map (0, 0) with
    | some d => exact Or.inl rfl
    | none =>
        dsimp only
        set available := (getRelatedEmbeddings domains knn s.assigned_domains
          ["google.com"] 5).filter (fun d => d ∉ s.assigned_domains) with hav
        by_cases hemp : available.isEmpty
        · rw [if_pos hemp]
          exact Or.inl rfl
        · rw [if_neg hemp]
          refine Or.inr ⟨randomChoice available c, rfl, ?_, rfl⟩
          have hne : available ≠ [] := fun hnil => hemp (by simp [hnil])
          have := List.of_mem_filter (randomChoice_mem hne c)
          simpa using this

/-- Serving one request either leaves the state untouched or appends one
fresh coordinate with one unassigned domain, in lockstep, and rewrites the
persisted file with the new map. -/
theorem applyOp_state_cases (domains : List String)
    (knn : List Nat → Nat → List (List Nat)) (s : RegState) (op : Op) :
    applyOp domains knn s op = s ∨
    ∃ k d, lookupKey s.coordinates_map k = none ∧ d ∉ s.assigned_domains ∧
      applyOp domains knn s op =
        { coordinates_map := s.coordinates_map ++ [(k, d)]
          assigned_domains := setAdd s.assigned_domains d
          savedFile := s.coordinates_map ++ [(k, d)] } := by
  cases op with
  | coords x y sourceX sourceY c =>
      have happ : applyOp domains knn s (.coords x y sourceX sourceY c)
          = (get_coordinates domains knn x y sourceX sourceY c s).2 := rfl
      rw [happ]
      cases hl : lookupKey s.coordinates_map (x, y) with
      | some d =>
          have : get_coordinates domains knn x y sourceX sourceY c s = (.ok d, s) := by
            unfold get_coordinates
            rw [hl]
          rw [this]
          exact Or.inl rfl
      | none =>
          have hgc : get_coordinates domains knn x y sourceX sourceY c s
              = generate_new_block domains knn x y sourceX sourceY c s := by
            unfold get_coordinates
            rw [hl]
          rw [hgc]
          rcases generate_new_block_state_cases domains knn x y sourceX sourceY c s
            with h | ⟨d, hd, h⟩
          · exact Or.inl h
          · refine Or.inr ⟨(x, y), d, hl, hd, ?_⟩
            rw [h, dictInsert_of_not_mem d hl]
  | seed c =>
      have happ : applyOp domains knn s (.seed c)
          = (seed_initial_block domains knn c s).2 := rfl
      rw [happ]
      rcases seed_initial_block_state_cases domains knn c s with h | ⟨d, h0, hd, h⟩
      · exact Or.inl h
      · refine Or.inr ⟨(0, 0), d, h0, hd, ?_⟩
        rw [h, dictInsert_of_not_mem d h0]

/-! ### Invariant preservation -/

theorem assignedMatchesValues_applyOp {domains : List String}
    {knn : List Nat → Nat → List (List Nat)} {s : RegState} (op : Op)
    (h : assignedMatchesValues s) :
    assignedMatchesValues (applyOp domains knn s op) := by
  rcases applyOp_state_cases domains knn s op with he | ⟨k, d, hk, hd, he⟩
  · rw [he]
    exact h
  · rw [he]
    intro x
    show x ∈ setAdd s.assigned_domains d ↔ x ∈ valuesOf (s.coordinates_map ++ [(k, d)])
    rw [mem_setAdd, valuesOf_append, List.mem_append, h x]
    simp

theorem assignedMatchesValues_runOps {domains : List String}
    {knn : List Nat → Nat → List (List Nat)} {s : RegState} (ops : List Op)
    (h : assignedMatchesValues s) :
    assignedMatchesValues (runOps domains knn s ops) := by
  induction ops generalizing s with
  | nil => exact h
  | cons op rest ih =>
      have : runOps domains knn s (op :: rest)
          = runOps domains knn (applyOp domains knn s op) rest := by
        simp [runOps]
      rw [this]
      exact ih (assignedMatchesValues_applyOp op h)

theorem loadState_assignedMatchesValues (f : CoordMap) :
    assignedMatchesValues (loadState f) := by
  intro d
  show d ∈ (valuesOf f).foldl setAdd [] ↔ d ∈ valuesOf f
  rw [mem_foldl_setAdd]
  simp

theorem domInj_applyOp {domains : List String}
    {knn : List Nat → Nat → List (List Nat)} {s : RegState} (op : Op)
    (h1 : domInj s.coordinates_map) (h2 : assignedMatchesValues s) :
    domInj (applyOp domains knn s op).coordinates_map := by
  rcases applyOp_state_cases domains knn s op with he | ⟨k, d, hk, hd, he⟩
  · rw [he]
    exact h1
  · rw [he]
    refine domInj_append h1 ?_
    intro hmem
    exact hd ((h2 d).mpr hmem)

theorem domInj_runOps {domains : List String}
    {knn : List Nat → Nat → List (List Nat)} {s : RegState} (ops : List Op)
    (h1 : domInj s.coordinates_map) (h2 : assignedMatchesValues s) :
    domInj (runOps domains knn s ops).coordinates_map := by
  induction ops generalizing s with
  | nil => exact h1
  | cons op rest ih =>
      have : runOps domains knn s (op :: rest)
          = runOps domains knn (applyOp domains knn s op) rest := by
        simp [runOps]
      rw [this]
      exact ih (domInj_applyOp op h1 h2) (assignedMatchesValues_applyOp op h2)

theorem savedFile_applyOp {domains : List String}
    {knn : List Nat → Nat → List (List Nat)} {s : RegState} (op : Op)
    (h : s.savedFile = s.coordinates_map) :
    (applyOp domains knn s op).savedFile = (applyOp domains knn s op).coordinates_map := by
  rcases applyOp_state_cases domains knn s op with he | ⟨k, d, hk, hd, he⟩
  · rw [he]
    exact h
  · rw [he]

theorem savedFile_runOps {domains : List String}
    {knn : List Nat → Nat → List (List Nat)} {s : RegState} (ops : List Op)
    (h : s.savedFile = s.coordinates_map) :
    (runOps domains knn s ops).savedFile = (runOps domains knn s ops).coordinates_map := by
  induction ops generalizing s with
  | nil => exact h
  | cons op rest ih =>
      have heq : runOps domains knn s (op :: rest)
          = runOps domains knn (applyOp domains knn s op) rest := by
        simp [runOps]
      rw [heq]
      exact ih (savedFile_applyOp op h)

/-! ### Claim theorems: invariants and persistence -/

/-- C8: starting from the loaded startup state, after any sequence of seed
and coordinate-resolution requests the assigned-domain set equals (as a set)
the set of values of the coordinate map: every insertion into the map is
accompanied by insertion of the same domain into the set. -/
theorem assigned_lockstep_invariant (domains : List String)
    (knn : List Nat → Nat → List (List Nat)) (f : CoordMap) (ops : List Op) :
    assignedMatchesValues (runOps domains knn (loadState f) ops) :=
  assignedMatchesValues_runOps ops (loadState_assignedMatchesValues f)

/-- C1: newly allocated domains are always absent from the assigned-domain
set at the moment of assignment (for both `generate_new_block` and a seeding
allocation), and hence, starting from a loaded registry in which no domain
sits at two distinct coordinates, any sequence of seed and
coordinate-resolution requests preserves that uniqueness invariant. -/
theorem uniqueness_invariant_preserved (domains : List String)
    (knn : List Nat → Nat → List (List Nat)) (f : CoordMap) (ops : List Op)
    (hinj : domInj f) :
    (∀ x y sourceX sourceY c s d s',
        generate_new_block domains knn x y sourceX sourceY c s = (.ok d, s') →
        d ∉ s.assigned_domains) ∧
    (∀ c s d s', lookupKey s.coordinates_map (0, 0) = none →
        seed_initial_block domains knn c s = (.ok d, s') →
        d ∉ s.assigned_domains) ∧
    domInj (runOps domains knn (loadState f) ops).coordinates_map := by
  refine ⟨?_, ?_, ?_⟩
  · intro x y sourceX sourceY c s d s' h
    exact (generate_new_block_ok h).1
  · intro c s d s' h0 h
    exact (seed_initial_block_ok h0 h).1
  · exact domInj_runOps ops hinj (loadState_assignedMatchesValues f)

/-- Witness for C1: a run of one seed and one allocation from the empty
registry keeps the uniqueness invariant. -/
theorem uniqueness_invariant_preserved_witness :
    domInj ([] : CoordMap) ∧
    domInj (runOps ["google.com", "youtube.com"] (fun _ _ => [[1], [0]])
      (loadState []) [Op.seed 0, Op.coords 1 0 0 0 0]).coordinates_map :=
  have h : domInj ([] : CoordMap) := fun k1 _ d h1 _ => by simp [lookupKey] at h1
  ⟨h, (uniqueness_invariant_preserved ["google.com", "youtube.com"]
    (fun _ _ => [[1], [0]]) [] [Op.seed 0, Op.coords 1 0 0 0 0] h).2.2⟩

/-- C9: for every reachable registry state, reloading the persisted JSON
snapshot reproduces an identical registry: the same coordinate-to-domain map
and a derived assigned-domain set equal (as a set) to the one in memory. -/
theorem persistence_roundtrip (domains : List String)
    (knn : List Nat → Nat → List (List Nat)) (f : CoordMap) (ops : List Op) :
    (loadState (runOps domains knn (loadState f) ops).savedFile).coordinates_map
      = (runOps domains knn (loadState f) ops).coordinates_map ∧
    ∀ d, d ∈ (loadState (runOps domains knn (loadState f) ops).savedFile).assigned_domains ↔
         d ∈ (runOps domains knn (loadState f) ops).assigned_domains := by
  have hfile : (runOps domains knn (loadState f) ops).savedFile
      = (runOps domains knn (loadState f) ops).coordinates_map :=
    savedFile_runOps ops rfl
  have hl := @assignedMatchesValues_runOps domains knn (loadState f) ops
    (loadState_assignedMatchesValues f)
  constructor
  · show (runOps domains knn (loadState f) ops).savedFile
        = (runOps domains knn (loadState f) ops).coordinates_map
    exact hfile
  · intro d
    show d ∈ (valuesOf (runOps domains knn (loadState f) ops).savedFile).foldl setAdd []
        ↔ d ∈ (runOps domains knn (loadState f) ops).assigned_domains
    rw [mem_foldl_setAdd]
    simp only [List.not_mem_nil, false_or]
    rw [hfile]
    exact (hl d).symm

/-! ### The nearest-neighbor adapter contract -/

theorem relatedInner_length_le (domains input assigned : List String)
    (topN : Nat) (row : List Nat) (acc : List String) :
    (relatedInner domains input assigned topN row acc).length
      ≤ max topN (acc.length + 1) := by
  induction row generalizing acc with
  | nil => exact le_max_of_le_right (Nat.le_succ _)
  | cons idx rest ih =>
      simp only [relatedInner]
      set nd := domains.getD idx "" with hnd
      by_cases hc : nd ∉ input ∧ nd ∉ acc ∧ nd ∉ assigned
      · rw [if_pos hc]
        by_cases hlen : topN ≤ (acc ++ [nd]).length
        · rw [if_pos hlen]
          have hl : (acc ++ [nd]).length = acc.length + 1 := by simp
          rw [hl]
          exact le_max_right _ _
        · rw [if_neg hlen]
          have h2 := ih (acc ++ [nd])
          have hle : (acc ++ [nd]).length + 1 ≤ topN :=
            Nat.succ_le_of_lt (Nat.lt_of_not_le hlen)
          rw [max_eq_left hle] at h2
          exact le_trans h2 (le_max_left _ _)
      · rw [if_neg hc]
        by_cases hlen : topN ≤ acc.length
        · rw [if_pos hlen]
          exact le_max_of_le_right (Nat.le_succ _)
        · rw [if_neg hlen]
          exact ih acc

theorem relatedInner_mem (domains input assigned : List String)
    (topN : Nat) (row : List Nat) (acc : List String) :
    ∀ d ∈ relatedInner domains input assigned topN row acc,
      d ∈ acc ∨ (d ∉ input ∧ d ∉ assigned) := by
  induction row generalizing acc with
  | nil => exact fun d hd => Or.inl hd
  | cons idx rest ih =>
      intro d hd
      simp only [relatedInner] at hd
      set nd := domains.getD idx "" with hnd
      by_cases hc : nd ∉ input ∧ nd ∉ acc ∧ nd ∉ assigned
      · rw [if_pos hc] at hd
        by_cases hlen : topN ≤ (acc ++ [nd]).length
        · rw [if_pos hlen] at hd
          rcases List.mem_append.mp hd with h | h
          · exact Or.inl h
          · have : d = nd := List.mem_singleton.mp h
            subst this
            exact Or.inr ⟨hc.1, hc.2.2⟩
        · rw [if_neg hlen] at hd
          rcases ih (acc ++ [nd]) d hd with h | h
          · rcases List.mem_append.mp h with h' | h'
            · exact Or.inl h'
            · have : d = nd := List.mem_singleton.mp h'
              subst this
              exact Or.inr ⟨hc.1, hc.2.2⟩
          · exact Or.inr h
      · rw [if_neg hc] at hd
        by_cases hlen : topN ≤ acc.length
        · rw [if_pos hlen] at hd
          exact Or.inl hd
        · rw [if_neg hlen] at hd
          exact ih acc d hd

theorem relatedFold_length (domains input assigned : List String)
    (topN : Nat) (rows : List (List Nat)) (is : List Nat) :
    ∀ acc : List String,
      ((is.foldl (fun acc i =>
          relatedInner domains input assigned topN (rows.getD i []) acc) acc).length + 1)
        ≤ max topN (acc.length + 1) + is.length := by
  induction is with
  | nil =>
      intro acc
      simp only [List.foldl_nil, List.length_nil, Nat.add_zero]
      exact le_max_right _ _
  | cons i rest ih =>
      intro acc
      rw [List.foldl_cons]
      have h1 := relatedInner_length_le domains input assigned topN (rows.getD i []) acc
      have h2 := ih (relatedInner domains input assigned topN (rows.getD i []) acc)
      have hmax : max topN
          ((relatedInner domains input assigned topN (rows.getD i []) acc).length + 1)
          ≤ max topN (acc.length + 1) + 1 :=
        max_le (le_trans (le_max_left _ _) (Nat.le_succ _)) (Nat.succ_le_succ h1)
      calc ((rest.foldl (fun acc i =>
              relatedInner domains input assigned topN (rows.getD i []) acc)
              (relatedInner domains input assigned topN (rows.getD i []) acc)).length + 1)
          ≤ max topN
              ((relatedInner domains input assigned topN (rows.getD i []) acc).length + 1)
              + rest.length := h2
        _ ≤ (max topN (acc.length + 1) + 1) + rest.length :=
            Nat.add_le_add_right hmax _
        _ = max topN (acc.length + 1) + (i :: rest).length := by
            simp [Nat.add_assoc, Nat.add_comm 1 rest.length]

theorem relatedFold_mem (domains input assigned : List String)
    (topN : Nat) (rows : List (List Nat)) (is : List Nat) :
    ∀ (acc : List String) (d : String),
      d ∈ is.foldl (fun acc i =>
          relatedInner domains input assigned topN (rows.getD i []) acc) acc →
      d ∈ acc ∨ (d ∉ input ∧ d ∉ assigned) := by
  induction is with
  | nil => exact fun acc d hd => Or.inl hd
  | cons i rest ih =>
      intro acc d hd
      rw [List.foldl_cons] at hd
      rcases ih _ d hd with h | h
      · exact relatedInner_mem domains input assigned topN (rows.getD i []) acc d h
      · exact Or.inr h

/-- C6 (counterexample): with two input domains and `top_n = 1` the adapter
returns two results — the `break` of line 88 only exits the inner loop over
one input domain's neighbors, so each later input domain can append one more
result beyond `top_n`. -/
theorem related_embeddings_topn_counterexample :
    getRelatedEmbeddings ["a", "b", "c", "d"] (fun _ _ => [[2], [3]]) []
        ["a", "b"] 1 = ["c", "d"] ∧
    ¬ ((getRelatedEmbeddings ["a", "b", "c", "d"] (fun _ _ => [[2], [3]]) []
        ["a", "b"] 1).length ≤ 1) :=
  ⟨rfl, by decide⟩

/-- C6 (amended): the adapter's result never contains an input domain or an
assigned domain, and its length is at most `topN + len(inputDomains) - 1`
when `topN ≥ 1` and at most `len(inputDomains)` when `topN = 0` (stated
additively as `length + 1 ≤ max topN 1 + len(inputDomains)`), rather than at
most `topN`. -/
theorem related_embeddings_contract (domains : List String)
    (knn : List Nat → Nat → List (List Nat))
    (assigned inputDomains : List String) (topN : Nat) :
    (getRelatedEmbeddings domains knn assigned inputDomains topN).length + 1
      ≤ max topN 1 + inputDomains.length ∧
    ∀ d ∈ getRelatedEmbeddings domains knn assigned inputDomains topN,
      d ∉ inputDomains ∧ d ∉ assigned := by
  constructor
  · have h := relatedFold_length domains inputDomains assigned topN
      (knn (inputDomains.filterMap (domainToIndex domains))
        (topN + inputDomains.length + assigned.length))
      (List.range inputDomains.length) []
    simpa [getRelatedEmbeddings] using h
  · intro d hd
    have hd' : d ∈ (List.range inputDomains.length).foldl
        (fun acc i => relatedInner domains inputDomains assigned topN
          ((knn (inputDomains.filterMap (domainToIndex domains))
            (topN + inputDomains.length + assigned.length)).getD i []) acc) [] := by
      simpa [getRelatedEmbeddings] using hd
    rcases relatedFold_mem domains inputDomains assigned topN
      (knn (inputDomains.filterMap (domainToIndex domains))
        (topN + inputDomains.length + assigned.length))
      (List.range inputDomains.length) [] d hd' with h | h
    · simp at h
    · exact h

/-- Witness for C6 (amended): concrete evaluation of the bound and of the
exclusion of a returned domain. -/
theorem related_embeddings_contract_witness :
    ((getRelatedEmbeddings ["a", "b", "c", "d"] (fun _ _ => [[2], [3]]) []
        ["a", "b"] 1).length + 1
      ≤ max 1 1 + (["a", "b"] : List String).length) ∧
    ("c" ∈ getRelatedEmbeddings ["a", "b", "c", "d"] (fun _ _ => [[2], [3]]) []
        ["a", "b"] 1) ∧
    ("c" ∉ (["a", "b"] : List String) ∧ "c" ∉ ([] : List String)) :=
  ⟨(related_embeddings_contract ["a", "b", "c", "d"] (fun _ _ => [[2], [3]]) []
      ["a", "b"] 1).1,
   by decide,
   (related_embeddings_contract ["a", "b", "c", "d"] (fun _ _ => [[2], [3]]) []
      ["a", "b"] 1).2 "c" (by decide)⟩

/-! ### The nearest-assigned search is a first-encountered argmin -/

theorem nearestLoop_spec (sourceX sourceY : Int) (l : List (Coord × String))
    (bk : Coord) (bd : Nat) (hbd : bd = manhattan bk sourceX sourceY) :
    ∃ k' d', nearestLoop sourceX sourceY l (some (bk, bd)) = some (k', d') ∧
      d' = manhattan k' sourceX sourceY ∧ d' ≤ bd ∧
      (∀ kv ∈ l, d' ≤ manhattan kv.1 sourceX sourceY) ∧
      ((k' = bk ∧ d' = bd) ∨
        ∃ l1 v l2, l = l1 ++ (k', v) :: l2 ∧ d' < bd ∧
          ∀ kv ∈ l1, d' < manhattan kv.1 sourceX sourceY) := by
  induction l generalizing bk bd with
  | nil =>
      exact ⟨bk, bd, rfl, hbd, le_refl _, by simp, Or.inl ⟨rfl, rfl⟩⟩
  | cons kv rest ih =>
      obtain ⟨kc, vc⟩ := kv
      by_cases hlt : manhattan kc sourceX sourceY < bd
      · have hstep : nearestLoop sourceX sourceY ((kc, vc) :: rest) (some (bk, bd))
            = nearestLoop sourceX sourceY rest
                (some (kc, manhattan kc sourceX sourceY)) := by
          simp only [nearestLoop]
          rw [if_pos hlt]
        obtain ⟨k', d', heq, hd', hle, hall, hcase⟩ :=
          ih kc (manhattan kc sourceX sourceY) rfl
        refine ⟨k', d', hstep.trans heq, hd', ?_, ?_, ?_⟩
        · exact le_of_lt (lt_of_le_of_lt hle hlt)
        · intro kv hkv
          rcases List.mem_cons.mp hkv with rfl | hkv
          · exact hle
          · exact hall kv hkv
        · rcases hcase with ⟨rfl, hdd⟩ | ⟨l1, v, l2, hsplit, hdlt, hstrict⟩
          · refine Or.inr ⟨[], vc, rest, by simp, ?_, by simp⟩
            rw [hdd]
            exact hlt
          · refine Or.inr ⟨(kc, vc) :: l1, v, l2, by rw [hsplit, List.cons_append], ?_, ?_⟩
            · exact lt_trans hdlt hlt
            · intro kv hkv
              rcases List.mem_cons.mp hkv with rfl | hkv
              · exact hdlt
              · exact hstrict kv hkv
      · have hstep : nearestLoop sourceX sourceY ((kc, vc) :: rest) (some (bk, bd))
            = nearestLoop sourceX sourceY rest (some (bk, bd)) := by
          simp only [nearestLoop]
          rw [if_neg hlt]
        have hbdle : bd ≤ manhattan kc sourceX sourceY := Nat.le_of_not_lt hlt
        obtain ⟨k', d', heq, hd', hle, hall, hcase⟩ := ih bk bd hbd
        refine ⟨k', d', hstep.trans heq, hd', hle, ?_, ?_⟩
        · intro kv hkv
          rcases List.mem_cons.mp hkv with rfl | hkv
          · exact le_trans hle hbdle
          · exact hall kv hkv
        · rcases hcase with h | ⟨l1, v, l2, hsplit, hdlt, hstrict⟩
          · exact Or.inl h
          · refine Or.inr ⟨(kc, vc) :: l1, v, l2, by rw [hsplit, List.cons_append], hdlt, ?_⟩
            intro kv hkv
            rcases List.mem_cons.mp hkv with rfl | hkv
            · exact lt_of_lt_of_le hdlt hbdle
            · exact hstrict kv hkv

/-- C3: for a non-empty registry, `nearest_block_key` returns an assigned
coordinate that minimizes the Manhattan distance to the source coordinate,
and every entry encountered earlier in the map's iteration order is strictly
farther — i.e. ties are broken in favor of the first-encountered coordinate. -/
theorem nearest_assigned_first_argmin (m : CoordMap) (sourceX sourceY : Int)
    (h : m ≠ []) :
    ∃ k v l1 l2, nearest_block_key m sourceX sourceY = some k ∧
      m = l1 ++ (k, v) :: l2 ∧
      (∀ kv ∈ m, manhattan k sourceX sourceY ≤ manhattan kv.1 sourceX sourceY) ∧
      (∀ kv ∈ l1, manhattan k sourceX sourceY < manhattan kv.1 sourceX sourceY) := by
  obtain ⟨kv0, rest, rfl⟩ := List.exists_cons_of_ne_nil h
  obtain ⟨k0, v0⟩ := kv0
  have hdef : nearestLoop sourceX sourceY ((k0, v0) :: rest) none
      = nearestLoop sourceX sourceY rest (some (k0, manhattan k0 sourceX sourceY)) := rfl
  obtain ⟨k', d', heq, hd', hle, hall, hcase⟩ :=
    nearestLoop_spec sourceX sourceY rest k0 (manhattan k0 sourceX sourceY) rfl
  have hnbk : nearest_block_key ((k0, v0) :: rest) sourceX sourceY = some k' := by
    unfold nearest_block_key
    rw [hdef, heq]
    rfl
  subst hd'
  rcases hcase with ⟨rfl, hdd⟩ | ⟨l1, v, l2, hsplit, hdlt, hstrict⟩
  · refine ⟨k', v0, [], rest, hnbk, by simp, ?_, by simp⟩
    intro kv hkv
    rcases List.mem_cons.mp hkv with rfl | hkv
    · exact le_refl _
    · exact hall kv hkv
  · refine ⟨k', v, (k0, v0) :: l1, l2, hnbk, by rw [hsplit, List.cons_append], ?_, ?_⟩
    · intro kv hkv
      rcases List.mem_cons.mp hkv with rfl | hkv
      · exact hle
      · exact hall kv hkv
    · intro kv hkv
      rcases List.mem_cons.mp hkv with rfl | hkv
      · exact hdlt
      · exact hstrict kv hkv

/-- Witness for C3: in a three-block registry, the block at `(1,0)` is the
unique Manhattan-nearest to source `(1,0)` and is returned. -/
theorem nearest_assigned_first_argmin_witness :
    (([((0, 0), "a"), ((1, 0), "b"), ((0, 1), "c")] : CoordMap) ≠ []) ∧
    (∃ k v l1 l2,
      nearest_block_key [((0, 0), "a"), ((1, 0), "b"), ((0, 1), "c")] 1 0 = some k ∧
      ([((0, 0), "a"), ((1, 0), "b"), ((0, 1), "c")] : CoordMap)
        = l1 ++ (k, v) :: l2 ∧
      (∀ kv ∈ ([((0, 0), "a"), ((1, 0), "b"), ((0, 1), "c")] : CoordMap),
        manhattan k 1 0 ≤ manhattan kv.1 1 0) ∧
      (∀ kv ∈ l1, manhattan k 1 0 < manhattan kv.1 1 0)) :=
  ⟨by decide,
   nearest_assigned_first_argmin [((0, 0), "a"), ((1, 0), "b"), ((0, 1), "c")]
     1 0 (by decide)⟩
